import Mathlib

/-!
Verification of the AssessOps backend core (deduplication, scoring,
attempt actions, leaderboard, ingestion) against its specification.

The Python source under `backend/app` is shallowly embedded below.
Strings are modelled as Lean `String`s, with the Python string methods
`strip` / `lower` / `upper` modelled character-wise on `List Char`
(ASCII fragment, which covers every string the services compare).
Python `dict`s are modelled as association lists (first binding wins,
mirroring unique-key dicts), timestamps as rational seconds, and the
float arithmetic of similarity/accuracy as exact rational arithmetic.
-/

/-- The characters removed by Python `str.strip()` (ASCII whitespace). -/
def pySpace (c : Char) : Bool :=
  c.toNat = 32 ∨ c.toNat = 9 ∨ c.toNat = 10 ∨ c.toNat = 13 ∨
  c.toNat = 11 ∨ c.toNat = 12

/-- ASCII lower-casing of one character, as Python `str.lower()` does it. -/
def pyCharLower (c : Char) : Char :=
  if 65 ≤ c.toNat ∧ c.toNat ≤ 90 then Char.ofNat (c.toNat + 32) else c

/-- ASCII upper-casing of one character, as Python `str.upper()` does it. -/
def pyCharUpper (c : Char) : Char :=
  if 97 ≤ c.toNat ∧ c.toNat ≤ 122 then Char.ofNat (c.toNat - 32) else c

/-- Python `str.strip()` on a character list: drop whitespace at both ends. -/
def pyStrip (l : List Char) : List Char :=
  (l.dropWhile pySpace).rdropWhile pySpace

/-- Python `str.lower()` on a character list. -/
def pyLower (l : List Char) : List Char := l.map pyCharLower

/-- Python `str.upper()` on a character list. -/
def pyUpper (l : List Char) : List Char := l.map pyCharUpper

/-- Python `str.strip()` on a `String`. -/
def pyStripStr (s : String) : String := ⟨pyStrip s.data⟩

/-- Python substring test `pat in s` on character lists. -/
def listContains (l pat : List Char) : Bool :=
  (List.range (l.length + 1)).any (fun i => pat.isPrefixOf (l.drop i))

/-- `deduplication.normalize_email`: trim and lowercase; when the result
contains the substring `"@gmail.com"`, drop everything from the first `'+'`
of the part before the first `'@'`.  Empty / missing input gives `none`. -/
def normalize_email (email : Option String) : Option String :=
  match email with
  | none => none
  | some e =>
    if e.data = [] then none
    else
      let t := pyLower (pyStrip e.data)
      if listContains t ("@gmail.com".data) then
        let localPart := t.takeWhile (fun c => c ≠ '@')
        let domain := (t.dropWhile (fun c => c ≠ '@')).drop 1
        some ⟨(localPart.takeWhile (fun c => c ≠ '+')) ++ '@' :: domain⟩
      else
        some ⟨t⟩

/-- `deduplication.normalize_phone`: keep only digits; empty / missing
input gives `none`. -/
def normalize_phone (phone : Option String) : Option String :=
  match phone with
  | none => none
  | some p =>
    if p.data = [] then none
    else some ⟨p.data.filter Char.isDigit⟩

/-- Truthiness of an optional string in Python (`None` and `""` are falsy). -/
def optTruthy (s : Option String) : Bool :=
  match s with
  | none => false
  | some v => v.data ≠ []

/-- The identity kind tag returned by `get_student_identity`. -/
inductive IdentKind where
  | email
  | phone
  | unknown
  deriving DecidableEq, Repr

/-- `deduplication.get_student_identity`: normalized email preferred,
phone as fallback, `(unknown, None)` when neither is truthy. -/
def get_student_identity (email phone : Option String) :
    IdentKind × Option String :=
  let ne := normalize_email email
  if optTruthy ne then (IdentKind.email, ne)
  else
    let np := normalize_phone phone
    if optTruthy np then (IdentKind.phone, np)
    else (IdentKind.unknown, none)

/-- Normalisation applied to one answer before comparison:
Python `str(x).upper().strip()`. -/
def normalizedAnswer (s : String) : String := ⟨pyStrip (pyUpper s.data)⟩

/-- The keys of an answers dict (keys are unique in a Python dict;
`dedup` makes the model insensitive to accidental repetition). -/
def dictKeys (m : List (String × String)) : List String :=
  (m.map Prod.fst).dedup

/-- First-binding lookup in an answers dict. -/
def dictGet (m : List (String × String)) (k : String) : Option String :=
  (m.find? (fun p => p.1 = k)).map Prod.snd

/-- The set `common_questions = keys(answers1) ∩ keys(answers2)` of
`calculate_answer_similarity`. -/
def commonQuestions (answers1 answers2 : List (String × String)) :
    List String :=
  (dictKeys answers1).filter (fun q => q ∈ dictKeys answers2)

/-- The `matching` count of `calculate_answer_similarity`: common questions
whose answers agree after `str(x).upper().strip()`. -/
def matchingCount (answers1 answers2 : List (String × String)) : Nat :=
  (commonQuestions answers1 answers2).countP (fun q =>
    normalizedAnswer ((dictGet answers1 q).getD "") =
      normalizedAnswer ((dictGet answers2 q).getD ""))

/-- `deduplication.calculate_answer_similarity`: `0.0` when either dict is
empty or the key sets are disjoint, else the fraction of common questions
whose normalised answers coincide. -/
def calculate_answer_similarity (answers1 answers2 : List (String × String)) :
    ℚ :=
  if answers1 = [] ∨ answers2 = [] then 0
  else if commonQuestions answers1 answers2 = [] then 0
  else
    (matchingCount answers1 answers2 : ℚ) /
      ((commonQuestions answers1 answers2).length : ℚ)

/-- Value of an ASCII digit string (helper for the `int()` model). -/
def digitsToNat (l : List Char) : Nat :=
  l.foldl (fun a c => a * 10 + (c.toNat - 48)) 0

/-- The unsigned part of a Python decimal numeral: one or more ASCII
digits, optionally grouped by single underscores (PEP 515) — an
underscore may appear only between two digits, so `"1_0"` is accepted
while `"_1"`, `"1_"` and `"1__0"` are not. -/
def pyNumeralCore : List Char → Bool
  | [] => false
  | [c] => c.isDigit
  | '_' :: _ => false
  | c :: '_' :: rest => c.isDigit && pyNumeralCore rest
  | c :: rest => c.isDigit && pyNumeralCore rest

/-- Model of Python `int(s)` on decimal numerals: optional whitespace,
one optional sign, then digits with optional PEP 515 underscore grouping
(`int("1_0") = 10`); anything else raises `ValueError`, modelled as
`none`.  The value ignores the grouping underscores. -/
def pyIntOfString (s : String) : Option Int :=
  match pyStrip s.data with
  | '+' :: r =>
    if pyNumeralCore r then some (digitsToNat (r.filter Char.isDigit) : Int)
    else none
  | '-' :: r =>
    if pyNumeralCore r then
      some (-(digitsToNat (r.filter Char.isDigit) : Int))
    else none
  | r =>
    if pyNumeralCore r then some (digitsToNat (r.filter Char.isDigit) : Int)
    else none

/-- The cycling synthetic key of `scoring.compute_score`. -/
def default_answers : List String := ["A", "B", "C", "D"]

/-- Expected answer for a question under the synthetic default key:
`["A","B","C","D"][(q_num - 1) % 4]` for numeric identifiers, `"A"`
otherwise (the `ValueError`/`IndexError` fallback of the source). -/
def defaultExpected (q : String) : String :=
  match pyIntOfString q with
  | some n => default_answers.getD ((n - 1).emod 4).toNat "A"
  | none => "A"

/-- A marking scheme `{correct, wrong, skip}` (`test.negative_marking`
after `_parse_json`, with the `{4,-1,0}` fallback applied upstream). -/
structure MarkScheme where
  correct : Int
  wrong : Int
  skip : Int
  deriving DecidableEq, Repr

/-- Python truthiness of the optional `answer_key` dict
(`None` and `{}` both select the synthetic-key branch). -/
def answerKeyTruthy : Option (List (String × String)) → Bool
  | none => false
  | some k => k ≠ []

/-- One loop iteration of `compute_score` when an answer key is used. -/
def keyStep (key : List (String × String)) (acc : Nat × Nat × Nat)
    (qa : String × String) : Nat × Nat × Nat :=
  let sa := normalizedAnswer qa.2
  if sa = "SKIP" then (acc.1, acc.2.1, acc.2.2 + 1)
  else
    match dictGet key qa.1 with
    | some ca =>
      if sa = normalizedAnswer ca then (acc.1 + 1, acc.2.1, acc.2.2)
      else (acc.1, acc.2.1 + 1, acc.2.2)
    | none => (acc.1, acc.2.1 + 1, acc.2.2)

/-- One loop iteration of `compute_score` on the synthetic-key branch. -/
def defaultStep (acc : Nat × Nat × Nat) (qa : String × String) :
    Nat × Nat × Nat :=
  let sa := normalizedAnswer qa.2
  if sa = "SKIP" then (acc.1, acc.2.1, acc.2.2 + 1)
  else if sa = defaultExpected qa.1 then (acc.1 + 1, acc.2.1, acc.2.2)
  else (acc.1, acc.2.1 + 1, acc.2.2)

/-- The `(correct, wrong, skipped)` counts of `compute_score`. -/
def scoreCounts (answers : List (String × String))
    (answer_key : Option (List (String × String))) : Nat × Nat × Nat :=
  if answerKeyTruthy answer_key then
    answers.foldl (keyStep (answer_key.getD [])) (0, 0, 0)
  else
    answers.foldl defaultStep (0, 0, 0)

/-- The fields of an `AttemptScore` row as computed by `compute_score`. -/
structure ScoreOut where
  correct : Nat
  wrong : Nat
  skipped : Nat
  accuracy : ℚ
  net_correct : Int
  score : Int
  deriving DecidableEq, Repr

/-- `scoring.compute_score` (pure core): counts, accuracy, net-correct and
final score under a marking scheme. -/
def compute_score (answers : List (String × String))
    (answer_key : Option (List (String × String))) (scheme : MarkScheme) :
    ScoreOut :=
  let c := (scoreCounts answers answer_key).1
  let w := (scoreCounts answers answer_key).2.1
  let s := (scoreCounts answers answer_key).2.2
  { correct := c
  , wrong := w
  , skipped := s
  , accuracy := if c + w > 0 then (c : ℚ) / ((c : ℚ) + (w : ℚ)) * 100 else 0
  , net_correct := (c : Int) - (w : Int)
  , score := c * scheme.correct + w * scheme.wrong + s * scheme.skip }

/-- The student row reachable from an existing attempt (may be absent). -/
structure StudentRef where
  email : Option String
  phone : Option String
  deriving DecidableEq, Repr

/-- An existing attempt as consumed by `check_duplicate`. -/
structure Candidate where
  id : Nat
  student : Option StudentRef
  started_at : Option ℚ
  answers : List (String × String)
  deriving DecidableEq, Repr

/-- The `new_attempt_data` dict passed to `check_duplicate`. -/
structure DedupInput where
  email : Option String
  phone : Option String
  answers : List (String × String)
  started_at : Option ℚ
  deriving DecidableEq, Repr

/-- The result dict of `check_duplicate`. -/
structure DedupResult where
  is_duplicate : Bool
  canonical_attempt_id : Option Nat
  deriving DecidableEq, Repr

/-- `existing.student.email if existing.student else None`. -/
def candEmail (c : Candidate) : Option String :=
  match c.student with
  | some s => s.email
  | none => none

/-- `existing.student.phone if existing.student else None`. -/
def candPhone (c : Candidate) : Option String :=
  match c.student with
  | some s => s.phone
  | none => none

/-- The candidate loop of `check_duplicate`, one iteration per existing
attempt, with the three `continue` paths and the short-circuit return. -/
def check_dup_go (d : DedupInput) (newIdentity : IdentKind × Option String) :
    List Candidate → DedupResult
  | [] => ⟨false, none⟩
  | c :: rest =>
    if newIdentity ≠ get_student_identity (candEmail c) (candPhone c) then
      check_dup_go d newIdentity rest
    else
      let timeFail : Bool :=
        match c.started_at, d.started_at with
        | some ts, some tn => |tn - ts| > 420
        | _, _ => false
      if timeFail then check_dup_go d newIdentity rest
      else if calculate_answer_similarity d.answers c.answers ≥ 92 / 100 then
        ⟨true, some c.id⟩
      else check_dup_go d newIdentity rest

/-- `deduplication.check_duplicate`: resolve the new identity, bail out
when it is unknown, otherwise scan the candidate pool in order. -/
def check_duplicate (d : DedupInput) (existing : List Candidate) :
    DedupResult :=
  let newIdentity := get_student_identity d.email d.phone
  if newIdentity.2 = none then ⟨false, none⟩
  else check_dup_go d newIdentity existing

/-- Spec-side time rule (section 4.3 step 3): within 420 seconds, with a
missing timestamp on either side counting as satisfied. -/
def timeRuleOk (d : DedupInput) (c : Candidate) : Bool :=
  match c.started_at, d.started_at with
  | some ts, some tn => |tn - ts| ≤ 420
  | _, _ => true

/-- Spec-side conjunction of the three per-candidate duplicate rules:
equal resolved identity, time proximity, similarity at least 0.92. -/
def passesAllRules (d : DedupInput) (c : Candidate) : Bool :=
  decide (get_student_identity (candEmail c) (candPhone c) =
      get_student_identity d.email d.phone) &&
    timeRuleOk d c &&
    decide (calculate_answer_similarity d.answers c.answers ≥ 92 / 100)

/-- Attempt lifecycle status. -/
inductive AttemptStatus where
  | INGESTED
  | DEDUPED
  | SCORED
  | FLAGGED
  deriving DecidableEq, Repr

/-- The state of one stored attempt acted on by the attempt routes
(status, answers, its optional score row, its flag rows). -/
structure AttemptRec where
  status : AttemptStatus
  answers : List (String × String)
  score : Option ScoreOut
  flags : List String
  deriving DecidableEq, Repr

/-- `routes/attempts.recompute_score` on an existing attempt: refuse with a
state-conflict client error when the status is `DEDUPED` (state untouched),
else recompute via `compute_score`, overwrite the score row and set the
status to `SCORED`.  `none` in the second component models the error. -/
def recompute_score (a : AttemptRec) (scheme : MarkScheme) :
    AttemptRec × Option ScoreOut :=
  if a.status = AttemptStatus.DEDUPED then (a, none)
  else
    let sc := compute_score a.answers none scheme
    ({ a with score := some sc, status := AttemptStatus.SCORED }, some sc)

/-- `routes/attempts.flag_attempt` on an existing attempt: refuse with a
validation error when the stripped reason is empty (state untouched), else
append a flag row with the stripped reason and set the status to
`FLAGGED`.  `none` in the second component models the error. -/
def flag_attempt (a : AttemptRec) (reason : String) :
    AttemptRec × Option String :=
  if pyStrip reason.data = [] then (a, none)
  else
    ({ a with status := AttemptStatus.FLAGGED
            , flags := a.flags ++ [⟨pyStrip reason.data⟩] },
      some ⟨pyStrip reason.data⟩)

/-- The score fields the leaderboard ranks by. -/
structure LbScore where
  score : ℚ
  accuracy : ℚ
  net_correct : Int
  deriving DecidableEq, Repr

/-- An attempt row as consumed by `routes/leaderboard.get_leaderboard`. -/
structure LbAttempt where
  id : Nat
  student_id : Nat
  test_id : Nat
  status : AttemptStatus
  score : Option LbScore
  deriving DecidableEq, Repr

/-- The replace-if-better comparison of `get_leaderboard`, literally the
source condition: better score, or same score and better accuracy, or same
score and accuracy and better net-correct. -/
def beats (cur old : LbScore) : Bool :=
  cur.score > old.score ∨
    (cur.score = old.score ∧ cur.accuracy > old.accuracy) ∨
    (cur.score = old.score ∧ cur.accuracy = old.accuracy ∧
      cur.net_correct > old.net_correct)

/-- Replace the stored best entry of the matching student in place
(Python dict update keeps the key position). -/
def bestReplace (a : LbAttempt) (s : LbScore) :
    List (LbAttempt × LbScore) → List (LbAttempt × LbScore)
  | [] => []
  | (b, sb) :: rest =>
    if b.student_id = a.student_id then
      (if beats s sb then (a, s) else (b, sb)) :: rest
    else (b, sb) :: bestReplace a s rest

/-- One iteration of the best-attempt-per-student loop: skip score-less
attempts, insert a first-seen student at the end, otherwise replace the
stored entry when the new attempt beats it. -/
def bestStep (acc : List (LbAttempt × LbScore)) (a : LbAttempt) :
    List (LbAttempt × LbScore) :=
  match a.score with
  | none => acc
  | some s =>
    if acc.any (fun e => e.1.student_id = a.student_id) then bestReplace a s acc
    else acc ++ [(a, s)]

/-- The `best_attempts` dict of `get_leaderboard`, in insertion order. -/
def bestAttempts (pool : List LbAttempt) : List (LbAttempt × LbScore) :=
  pool.foldl bestStep []

/-- The Python sort key `(score, accuracy, net_correct)` as a
lexicographic triple (tuple comparison is lexicographic). -/
def skey (s : LbScore) : ℚ ×ₗ ℚ ×ₗ ℤ :=
  toLex (s.score, toLex (s.accuracy, s.net_correct))

/-- Stable insertion of one entry into a descending-sorted list: walk past
strictly greater keys, so that on equal keys the earlier input entry stays
first — the stability contract of Python `sorted(..., reverse=True)`. -/
def insertDesc (x : LbAttempt × LbScore) :
    List (LbAttempt × LbScore) → List (LbAttempt × LbScore)
  | [] => [x]
  | y :: ys => if skey x.2 < skey y.2 then y :: insertDesc x ys else x :: y :: ys

/-- Stable descending sort by `skey`, modelling
`sorted(best_attempts.values(), key=..., reverse=True)`. -/
def sortDesc : List (LbAttempt × LbScore) → List (LbAttempt × LbScore)
  | [] => []
  | x :: xs => insertDesc x (sortDesc xs)

/-- `routes/leaderboard.get_leaderboard` for one test: keep attempts of the
test with status exactly `SCORED`, reduce to the best attempt per student,
sort descending by `(score, accuracy, net_correct)`. -/
def get_leaderboard (tid : Nat) (attempts : List LbAttempt) :
    List (LbAttempt × LbScore) :=
  sortDesc (bestAttempts (attempts.filter
    (fun a => a.test_id = tid ∧ a.status = AttemptStatus.SCORED)))

/-- A stored student row (`models/student.Student`). -/
structure StudentRow where
  id : Nat
  full_name : String
  email : Option String
  phone : Option String
  deriving DecidableEq, Repr

/-- A stored test row (`models/test.Test`), with its marking scheme. -/
structure TestRow where
  id : Nat
  name : String
  scheme : MarkScheme
  deriving DecidableEq, Repr

/-- A stored attempt row (`models/attempt.Attempt`). -/
structure AttemptRow where
  id : Nat
  student_id : Nat
  test_id : Nat
  started_at : Option ℚ
  answers : List (String × String)
  status : AttemptStatus
  duplicate_of : Option Nat
  deriving DecidableEq, Repr

/-- The transactional store seen by one ingestion batch; `nextId` models
fresh UUID generation. -/
structure IngestDB where
  students : List StudentRow
  tests : List TestRow
  attempts : List AttemptRow
  scores : List (Nat × ScoreOut)
  nextId : Nat
  deriving DecidableEq, Repr

/-- One `AttemptEvent` of the ingestion payload.  `started_at` carries the
result of `parse_timestamp` in seconds (`none` = missing or unparseable). -/
structure IngestEvent where
  event_id : String
  student_name : String
  student_email : Option String
  student_phone : Option String
  test_name : String
  started_at : Option ℚ
  submitted_at : Option ℚ
  answers : List (String × String)
  deriving DecidableEq, Repr

/-- One per-event outcome entry of the batch summary `details` list. -/
inductive IngestDetail where
  | error (event_id reason : String)
  | deduped (event_id : String) (attempt_id canonical_id : Nat)
  | scoredOk (event_id : String) (attempt_id : Nat) (score : Int)
  deriving DecidableEq, Repr

/-- `routes/ingest.find_or_create_student`: linear scan by normalized
email, then by normalized phone, else create a row holding the
normalized values. -/
def find_or_create_student (db : IngestDB) (name : String)
    (email phone : Option String) : IngestDB × Nat :=
  let ne := normalize_email email
  let np := normalize_phone phone
  let byEmail :=
    if optTruthy ne then
      db.students.find? (fun s => s.email.isSome &&
        decide (normalize_email s.email = ne))
    else none
  let found :=
    match byEmail with
    | some s => some s
    | none =>
      if optTruthy np then
        db.students.find? (fun s => s.phone.isSome &&
          decide (normalize_phone s.phone = np))
      else none
  match found with
  | some s => (db, s.id)
  | none =>
    ({ db with students := db.students ++ [⟨db.nextId, name, ne, np⟩]
             , nextId := db.nextId + 1 }, db.nextId)

/-- `routes/ingest.find_or_create_test`: exact name match, else create
with the default `{4,-1,0}` scheme. -/
def find_or_create_test (db : IngestDB) (tname : String) :
    IngestDB × TestRow :=
  match db.tests.find? (fun t => t.name = tname) with
  | some t => (db, t)
  | none =>
    let t : TestRow := ⟨db.nextId, tname, ⟨4, -1, 0⟩⟩
    ({ db with tests := db.tests ++ [t], nextId := db.nextId + 1 }, t)

/-- View a stored attempt as a `check_duplicate` candidate, resolving its
student row as the ORM relationship would. -/
def attemptToCandidate (db : IngestDB) (a : AttemptRow) : Candidate :=
  { id := a.id
  , student := (db.students.find? (fun s => s.id = a.student_id)).map
      (fun s => ⟨s.email, s.phone⟩)
  , started_at := a.started_at
  , answers := a.answers }

/-- The per-event pipeline of `routes/ingest.ingest_attempts`: timestamp
check, student/test resolution, candidate pool restricted to the same test
and statuses `INGESTED`/`SCORED`, duplicate decision, attempt persistence,
conditional scoring. -/
def process_event (db : IngestDB) (ev : IngestEvent) :
    IngestDB × IngestDetail :=
  match ev.started_at with
  | none => (db, .error ev.event_id "Could not parse started_at timestamp")
  | some ts =>
    let r1 := find_or_create_student db ev.student_name ev.student_email
      ev.student_phone
    let db1 := r1.1
    let sid := r1.2
    let r2 := find_or_create_test db1 ev.test_name
    let db2 := r2.1
    let test := r2.2
    let pool := db2.attempts.filter (fun a => a.test_id = test.id ∧
      (a.status = AttemptStatus.INGESTED ∨ a.status = AttemptStatus.SCORED))
    let dres := check_duplicate
      ⟨ev.student_email, ev.student_phone, ev.answers, some ts⟩
      (pool.map (attemptToCandidate db2))
    let aid := db2.nextId
    if dres.is_duplicate then
      let arow : AttemptRow :=
        ⟨aid, sid, test.id, some ts, ev.answers, AttemptStatus.DEDUPED,
          dres.canonical_attempt_id⟩
      ({ db2 with attempts := db2.attempts ++ [arow], nextId := aid + 1 },
        .deduped ev.event_id aid (dres.canonical_attempt_id.getD 0))
    else
      let sc := compute_score ev.answers none test.scheme
      let arow : AttemptRow :=
        ⟨aid, sid, test.id, some ts, ev.answers, AttemptStatus.SCORED, none⟩
      ({ db2 with
          attempts := db2.attempts ++ [arow],
          scores := db2.scores ++ [(aid, sc)],
          nextId := aid + 1 },
        .scoredOk ev.event_id aid sc.score)

/-- Accumulator of the batch loop: store plus the four counters and the
`details` list. -/
structure IngestState where
  db : IngestDB
  ingested : Nat
  duplicates : Nat
  scored : Nat
  errors : Nat
  details : List IngestDetail
  deriving DecidableEq, Repr

/-- One iteration of the batch loop: process the event, record its outcome
entry, bump the matching counters. -/
def stepEvent (st : IngestState) (ev : IngestEvent) : IngestState :=
  let r := process_event st.db ev
  match r.2 with
  | .error .. =>
    { st with db := r.1, errors := st.errors + 1
            , details := st.details ++ [r.2] }
  | .deduped .. =>
    { st with db := r.1, duplicates := st.duplicates + 1
            , ingested := st.ingested + 1, details := st.details ++ [r.2] }
  | .scoredOk .. =>
    { st with db := r.1, scored := st.scored + 1
            , ingested := st.ingested + 1, details := st.details ++ [r.2] }

/-- The response schema of the ingestion endpoint. -/
structure IngestionSummary where
  total_received : Nat
  ingested : Nat
  duplicates_detected : Nat
  scored : Nat
  errors : Nat
  details : List IngestDetail
  deriving DecidableEq, Repr

/-- `routes/ingest.ingest_attempts`: fold the per-event pipeline over the
batch and assemble the summary. -/
def ingest_attempts (db : IngestDB) (events : List IngestEvent) :
    IngestionSummary × IngestDB :=
  let final := events.foldl stepEvent ⟨db, 0, 0, 0, 0, []⟩
  (⟨events.length, final.ingested, final.duplicates, final.scored,
    final.errors, final.details⟩, final.db)

/-- Spec-side Gmail alias stripping (section 4.1): remove any `+suffix`
from the local part before the first `@`, keep the rest. -/
def specGmailStrip (t : List Char) : List Char :=
  ((t.takeWhile (fun c => c ≠ '@')).takeWhile (fun c => c ≠ '+')) ++
    '@' :: (t.dropWhile (fun c => c ≠ '@')).drop 1

/-- The spec's three-key ranking relation, tie-breaks exactly in the order
score, then accuracy, then net-correct (section 6): `x` ranks at least as
high as `y`. -/
def rankGE (x y : LbScore) : Prop :=
  x.score > y.score ∨
    (x.score = y.score ∧ (x.accuracy > y.accuracy ∨
      (x.accuracy = y.accuracy ∧ x.net_correct ≥ y.net_correct)))

/-- The sortedness relation maintained by `sortDesc`: the earlier entry's
key is at least the later entry's key. -/
def lbLE (u v : LbAttempt × LbScore) : Prop := skey v.2 ≤ skey u.2

/-! ## General list helper lemmas -/

theorem dropWhile_cons_prop {α : Type} {p : α → Bool} {l : List α} {c : α}
    {cs : List α} (h : l.dropWhile p = c :: cs) : p c = false := by
  induction l with
  | nil => simp at h
  | cons a as ih =>
    rw [List.dropWhile_cons] at h
    split at h
    · exact ih h
    · cases h
      simpa using ‹¬ p c = true›

theorem isPrefixOf_self {α : Type} [DecidableEq α] (l : List α) :
    l.isPrefixOf l = true := by
  induction l with
  | nil => rfl
  | cons a as ih => simp [List.isPrefixOf]

/-! ## C3: normalize_email and the Gmail rule -/

/-- C3 (counterexample).  The claim says the `+suffix` is stripped only
when the domain is exactly `gmail.com` and that any other address comes
back unchanged (besides trimming and lowercasing).  The input
`"x+y@gmail.community"` is already trimmed and lowercased and its domain is
`gmail.community`, yet `normalize_email` strips the `+y`: the source tests
`"@gmail.com" in email` as a substring, not the domain. -/
theorem normalize_email_domain_counterexample :
    normalize_email (some "x+y@gmail.community") = some "x@gmail.community" ∧
    normalize_email (some "x+y@gmail.community") ≠
      some "x+y@gmail.community" ∧
    pyLower (pyStrip ("x+y@gmail.community".data)) =
      "x+y@gmail.community".data ∧
    (("x+y@gmail.community".data).dropWhile (fun c => c ≠ '@')).drop 1 ≠
      "gmail.com".data := by
  refine ⟨by decide, by decide, by decide, by decide⟩

/-- C3 (amended).  For a non-empty e-mail string, `normalize_email` trims
and lowercases; it strips the `+suffix` of the local part whenever the
result contains `"@gmail.com"` as a substring — in particular whenever the
domain after the first `@` is exactly `gmail.com` — and returns the
trimmed lowercased string unchanged when the substring is absent; empty or
missing input gives `none`. -/
theorem normalize_email_gmail_rule (e : String) (hne : e.data ≠ []) :
    ((((pyLower (pyStrip e.data)).dropWhile (fun c => c ≠ '@')).drop 1 =
        "gmail.com".data →
      normalize_email (some e) =
        some ⟨specGmailStrip (pyLower (pyStrip e.data))⟩) ∧
    (listContains (pyLower (pyStrip e.data)) ("@gmail.com".data) = true →
      normalize_email (some e) =
        some ⟨specGmailStrip (pyLower (pyStrip e.data))⟩) ∧
    (listContains (pyLower (pyStrip e.data)) ("@gmail.com".data) = false →
      normalize_email (some e) = some ⟨pyLower (pyStrip e.data)⟩)) ∧
    normalize_email (some "") = none ∧ normalize_email none = none := by
  have hsub : ∀ h2 : listContains (pyLower (pyStrip e.data))
      ("@gmail.com".data) = true,
      normalize_email (some e) =
        some ⟨specGmailStrip (pyLower (pyStrip e.data))⟩ := by
    intro h2
    simp only [normalize_email, specGmailStrip]
    rw [if_neg hne, if_pos h2]
  refine ⟨⟨?_, hsub, ?_⟩, by decide, rfl⟩
  · intro h1
    apply hsub
    set t := pyLower (pyStrip e.data) with ht
    rcases hd : t.dropWhile (fun c => c ≠ '@') with _ | ⟨d, rest⟩
    · rw [hd] at h1
      exact absurd h1 (by decide)
    · have hdat : d = '@' := by
        have := dropWhile_cons_prop hd
        simpa using this
      have hrest : rest = "gmail.com".data := by
        rw [hd] at h1
        simpa using h1
      have hsplit : t = t.takeWhile (fun c => c ≠ '@') ++
          '@' :: "gmail.com".data := by
        conv_lhs => rw [← List.takeWhile_append_dropWhile
          (fun c => decide (c ≠ '@')) t]
        rw [hd, hdat, hrest]
      obtain ⟨lp, hlp⟩ : ∃ lp, t.takeWhile (fun c => c ≠ '@') = lp :=
        ⟨_, rfl⟩
      rw [hlp] at hsplit
      rw [listContains, List.any_eq_true]
      refine ⟨lp.length, ?_, ?_⟩
      · rw [List.mem_range, hsplit, List.length_append]
        simp
        omega
      · rw [hsplit, List.drop_left]
        exact isPrefixOf_self _
  · intro h2
    simp only [normalize_email]
    rw [if_neg hne, if_neg (by simp [h2])]

/-- C3 (witness): the amended rule applied to
`"John.Doe+promo@gmail.com"`, whose domain is exactly `gmail.com`,
yielding `"john.doe@gmail.com"`. -/
theorem normalize_email_gmail_rule_witness :
    normalize_email (some "John.Doe+promo@gmail.com") =
      some "john.doe@gmail.com" := by
  have h := (normalize_email_gmail_rule "John.Doe+promo@gmail.com"
    (by decide)).1.1 (by decide)
  rw [h]
  decide

/-! ## C4: answer similarity -/

/-- C4.  `calculate_answer_similarity` is `0` when either answers dict is
empty or the common-question set is empty, otherwise the fraction of
common questions with equal normalised answers; it always lies in
`[0, 1]`, and the two spec examples hold (`{} vs {"1":"A"}` gives `0`,
`{"1":"A","2":"B"} vs {"1":"a ","2":"C"}` gives `0.5`). -/
theorem answer_similarity_spec (a b : List (String × String)) :
    (a = [] ∨ b = [] → calculate_answer_similarity a b = 0) ∧
    (commonQuestions a b = [] → calculate_answer_similarity a b = 0) ∧
    (commonQuestions a b ≠ [] → ¬(a = [] ∨ b = []) →
      calculate_answer_similarity a b =
        (matchingCount a b : ℚ) / ((commonQuestions a b).length : ℚ)) ∧
    0 ≤ calculate_answer_similarity a b ∧
    calculate_answer_similarity a b ≤ 1 ∧
    calculate_answer_similarity [] [("1", "A")] = 0 ∧
    calculate_answer_similarity [("1", "A"), ("2", "B")]
      [("1", "a "), ("2", "C")] = 1 / 2 := by
  have hhalf : calculate_answer_similarity [("1", "A"), ("2", "B")]
      [("1", "a "), ("2", "C")] = 1 / 2 := by
    have h1 : commonQuestions [("1", "A"), ("2", "B")]
        [("1", "a "), ("2", "C")] = ["1", "2"] := by decide
    have h2 : matchingCount [("1", "A"), ("2", "B")]
        [("1", "a "), ("2", "C")] = 1 := by decide
    unfold calculate_answer_similarity
    rw [h1, h2]
    simp
  refine ⟨?_, ?_, ?_, ?_, ?_, by decide, hhalf⟩
  · intro h
    simp only [calculate_answer_similarity]
    rw [if_pos h]
  · intro h
    simp only [calculate_answer_similarity]
    by_cases he : a = [] ∨ b = []
    · rw [if_pos he]
    · rw [if_neg he, if_pos h]
  · intro h he
    simp only [calculate_answer_similarity]
    rw [if_neg he, if_neg h]
  · simp only [calculate_answer_similarity]
    split_ifs with h1 h2
    · exact le_refl 0
    · exact le_refl 0
    · exact div_nonneg (Nat.cast_nonneg _) (Nat.cast_nonneg _)
  · simp only [calculate_answer_similarity]
    split_ifs with h1 h2
    · norm_num
    · norm_num
    · have hpos : 0 < ((commonQuestions a b).length : ℚ) := by
        have := List.length_pos.mpr h2
        exact_mod_cast this
      rw [div_le_one hpos]
      have := List.countP_le_length (l := commonQuestions a b)
        (p := fun q => decide (normalizedAnswer ((dictGet a q).getD "") =
          normalizedAnswer ((dictGet b q).getD "")))
      exact_mod_cast this

/-- C4 (witness): the non-degenerate branch of the similarity contract
instantiated on the spec's `0.5` example. -/
theorem answer_similarity_spec_witness :
    calculate_answer_similarity [("1", "A"), ("2", "B")]
        [("1", "a "), ("2", "C")] =
      (matchingCount [("1", "A"), ("2", "B")] [("1", "a "), ("2", "C")] : ℚ) /
        ((commonQuestions [("1", "A"), ("2", "B")]
          [("1", "a "), ("2", "C")]).length : ℚ) :=
  (answer_similarity_spec _ _).2.2.1 (by decide) (by decide)

/-! ## Character-level lemmas for the normalisation pipeline -/

theorem string_data_mk (l : List Char) : (String.mk l).data = l := rfl

theorem pyCharLower_idem (c : Char) :
    pyCharLower (pyCharLower c) = pyCharLower c := by
  unfold pyCharLower
  by_cases h : 65 ≤ c.toNat ∧ c.toNat ≤ 90
  · rw [if_pos h]
    obtain ⟨h1, h2⟩ := h
    generalize c.toNat = n at h1 h2
    interval_cases n <;> decide
  · rw [if_neg h, if_neg h]

theorem pySpace_pyCharLower (c : Char) :
    pySpace (pyCharLower c) = pySpace c := by
  unfold pyCharLower
  by_cases h : 65 ≤ c.toNat ∧ c.toNat ≤ 90
  · rw [if_pos h]
    obtain ⟨h1, h2⟩ := h
    unfold pySpace
    generalize c.toNat = n at h1 h2
    interval_cases n <;> decide
  · rw [if_neg h]

theorem pyLower_idem (l : List Char) : pyLower (pyLower l) = pyLower l := by
  induction l with
  | nil => rfl
  | cons a as ih =>
    simp only [pyLower, List.map_cons] at ih ⊢
    rw [pyCharLower_idem, ih]

theorem dropWhile_pyLower (l : List Char) :
    List.dropWhile pySpace (pyLower l) =
      pyLower (List.dropWhile pySpace l) := by
  induction l with
  | nil => rfl
  | cons a as ih =>
    simp only [pyLower, List.map_cons, List.dropWhile_cons] at ih ⊢
    rw [pySpace_pyCharLower]
    by_cases h : pySpace a = true
    · rw [if_pos h, if_pos h]
      exact ih
    · rw [if_neg h, if_neg h]
      rw [List.map_cons]

theorem rdropWhile_pyLower (l : List Char) :
    List.rdropWhile pySpace (pyLower l) =
      pyLower (List.rdropWhile pySpace l) := by
  simp only [List.rdropWhile]
  have h1 : (pyLower l).reverse = pyLower l.reverse := by
    simp [pyLower, List.map_reverse]
  rw [h1, dropWhile_pyLower]
  simp [pyLower, List.map_reverse]

theorem pyStrip_pyLower (l : List Char) :
    pyStrip (pyLower l) = pyLower (pyStrip l) := by
  simp only [pyStrip, dropWhile_pyLower, rdropWhile_pyLower]

theorem rdropWhile_append_exists (p : Char → Bool) (x : List Char) :
    ∃ rest, x = x.rdropWhile p ++ rest := by
  obtain ⟨pre, hpre⟩ := List.dropWhile_suffix (l := x.reverse) p
  refine ⟨pre.reverse, ?_⟩
  rw [List.rdropWhile]
  have h2 := congrArg List.reverse hpre
  simpa [List.reverse_append] using h2.symm

theorem dropWhile_rdropWhile_fix {p : Char → Bool} {x : List Char}
    (hx : x.dropWhile p = x) :
    (x.rdropWhile p).dropWhile p = x.rdropWhile p := by
  obtain ⟨rest, hrest⟩ := rdropWhile_append_exists p x
  rcases hr : x.rdropWhile p with _ | ⟨c, cs⟩
  · simp
  · have hxc : x = c :: (cs ++ rest) := by
      rw [hrest, hr]
      simp
    have hpc : p c = false := dropWhile_cons_prop (l := x) (hx.trans hxc)
    rw [List.dropWhile_cons, hpc]
    simp

theorem pyStrip_idem (l : List Char) : pyStrip (pyStrip l) = pyStrip l := by
  simp only [pyStrip]
  rw [dropWhile_rdropWhile_fix (List.dropWhile_idempotent _ _),
    List.rdropWhile_idempotent]

theorem map_fix_of_mem {f : Char → Char} :
    ∀ {l : List Char}, (∀ c ∈ l, f c = c) → l.map f = l := by
  intro l
  induction l with
  | nil => intro _; rfl
  | cons a as ih =>
    intro h
    simp only [List.map_cons]
    rw [h a (by simp), ih (fun c hc => h c (by simp [hc]))]

theorem mem_map_fix {f : Char → Char} :
    ∀ {l : List Char}, l.map f = l → ∀ c ∈ l, f c = c := by
  intro l
  induction l with
  | nil => intro _ c hc; simp at hc
  | cons a as ih =>
    intro h c hc
    simp only [List.map_cons, List.cons.injEq] at h
    rcases List.mem_cons.mp hc with hc | hc
    · rw [hc]; exact h.1
    · exact ih h.2 c hc

theorem isPrefixOf_append_exists {α : Type} [DecidableEq α] :
    ∀ {l1 l2 : List α}, l1.isPrefixOf l2 = true → ∃ r, l1 ++ r = l2 := by
  intro l1
  induction l1 with
  | nil => intro l2 _; exact ⟨l2, rfl⟩
  | cons a as ih =>
    intro l2 h
    cases l2 with
    | nil => simp [List.isPrefixOf] at h
    | cons b bs =>
      simp only [List.isPrefixOf, Bool.and_eq_true, beq_iff_eq] at h
      obtain ⟨r, hr⟩ := ih h.2
      exact ⟨r, by rw [h.1]; simp [hr]⟩

theorem mem_of_mem_takeWhile {q : Char → Bool} {l : List Char} {c : Char}
    (h : c ∈ l.takeWhile q) : c ∈ l := by
  rw [← List.takeWhile_append_dropWhile q l]
  exact List.mem_append_left _ h

theorem mem_of_mem_dropWhile {q : Char → Bool} {l : List Char} {c : Char}
    (h : c ∈ l.dropWhile q) : c ∈ l := by
  rw [← List.takeWhile_append_dropWhile q l]
  exact List.mem_append_right _ h

theorem takeWhile_cons_head {q : Char → Bool} {l : List Char} {c : Char}
    {cs : List Char} (h : l.takeWhile q = c :: cs) : ∃ l', l = c :: l' := by
  cases l with
  | nil => simp at h
  | cons a as =>
    rw [List.takeWhile_cons] at h
    split at h
    · cases h; exact ⟨as, rfl⟩
    · cases h

theorem takeWhile_append_all {q : Char → Bool} :
    ∀ {xs ys : List Char}, (∀ c ∈ xs, q c = true) →
      (xs ++ ys).takeWhile q = xs ++ ys.takeWhile q := by
  intro xs
  induction xs with
  | nil => intro ys _; rfl
  | cons a as ih =>
    intro ys h
    simp only [List.cons_append, List.takeWhile_cons]
    rw [h a (by simp), if_pos rfl, ih (fun c hc => h c (by simp [hc]))]

theorem dropWhile_append_all {q : Char → Bool} :
    ∀ {xs ys : List Char}, (∀ c ∈ xs, q c = true) →
      (xs ++ ys).dropWhile q = ys.dropWhile q := by
  intro xs
  induction xs with
  | nil => intro ys _; rfl
  | cons a as ih =>
    intro ys h
    simp only [List.cons_append, List.dropWhile_cons]
    rw [h a (by simp)]
    exact ih (fun c hc => h c (by simp [hc]))

theorem takeWhile_all {q : Char → Bool} :
    ∀ {l : List Char}, (∀ c ∈ l, q c = true) → l.takeWhile q = l := by
  intro l
  induction l with
  | nil => intro _; rfl
  | cons a as ih =>
    intro h
    rw [List.takeWhile_cons, h a (by simp), if_pos rfl,
      ih (fun c hc => h c (by simp [hc]))]

/-! ## C8: idempotence of normalize_email -/

theorem dropWhile_append_left_fix {p : Char → Bool} {x y : List Char}
    (hx : x.dropWhile p = x) (hne : x ≠ []) :
    (x ++ y).dropWhile p = x ++ y := by
  rcases hxc : x with _ | ⟨c, cs⟩
  · exact absurd hxc hne
  · rw [hxc] at hx
    have hpc : p c = false := dropWhile_cons_prop hx
    rw [List.cons_append, List.dropWhile_cons, hpc]
    simp

theorem rdropWhile_append_right_fix {p : Char → Bool} {x y : List Char}
    (hy : y.rdropWhile p = y) (hne : y ≠ []) :
    (x ++ y).rdropWhile p = x ++ y := by
  have h1 : y.reverse.dropWhile p = y.reverse := by
    have h2 : (y.reverse.dropWhile p).reverse = y := hy
    have h3 := congrArg List.reverse h2
    simpa using h3
  have h4 : y.reverse ≠ [] := by simpa using hne
  have h5 := dropWhile_append_left_fix (y := x.reverse) h1 h4
  rw [List.rdropWhile, List.reverse_append, h5, List.reverse_append]
  simp

theorem rdropWhile_fix_of_append {p : Char → Bool} {x y : List Char}
    (h : (x ++ y).rdropWhile p = x ++ y) (hne : y ≠ []) :
    y.rdropWhile p = y := by
  have h1 : ((x ++ y).reverse).dropWhile p = (x ++ y).reverse := by
    have h2 : (((x ++ y).reverse).dropWhile p).reverse = x ++ y := h
    have h3 := congrArg List.reverse h2
    simpa using h3
  rcases hyc : y.reverse with _ | ⟨c, cs⟩
  · have h4 : y = [] := by simpa using congrArg List.reverse hyc
    exact absurd h4 hne
  · have hrev : (x ++ y).reverse = c :: (cs ++ x.reverse) := by
      rw [List.reverse_append, hyc, List.cons_append]
    have hpc : p c = false := dropWhile_cons_prop (by rw [h1]; exact hrev)
    have h6 : y.reverse.dropWhile p = y.reverse := by
      rw [hyc, List.dropWhile_cons, hpc]
      simp
    rw [List.rdropWhile, h6]
    simp

theorem normalize_email_result_fixed (s : String) (h : pyStrip s.data ≠ [])
    {r : String} (hr : normalize_email (some s) = some r) :
    normalize_email (some r) = some r := by
  have hne : s.data ≠ [] := by
    intro hh
    apply h
    rw [hh]
    simp [pyStrip]
  obtain ⟨t, ht⟩ : ∃ t, pyLower (pyStrip s.data) = t := ⟨_, rfl⟩
  have hst : pyStrip t = t := by rw [← ht, pyStrip_pyLower, pyStrip_idem]
  have hlt : pyLower t = t := by rw [← ht, pyLower_idem]
  have htne : t ≠ [] := by
    rw [← ht]
    simp only [pyLower, ne_eq, List.map_eq_nil_iff]
    exact h
  have hdw : t.dropWhile pySpace = t := by
    obtain ⟨rest, hrest⟩ :=
      rdropWhile_append_exists pySpace (t.dropWhile pySpace)
    have hst2 : (t.dropWhile pySpace).rdropWhile pySpace = t := hst
    rw [hst2] at hrest
    have hlen : (t.dropWhile pySpace).length ≤ t.length :=
      (List.dropWhile_suffix pySpace).length_le
    have hr0 : rest = [] := by
      have h2 := congrArg List.length hrest
      rw [List.length_append] at h2
      have h3 : rest.length = 0 := by omega
      exact List.length_eq_zero.mp h3
    rw [hr0, List.append_nil] at hrest
    exact hrest
  have hrw : t.rdropWhile pySpace = t := by
    have h2 : (t.dropWhile pySpace).rdropWhile pySpace = t := hst
    rw [hdw] at h2
    exact h2
  simp only [normalize_email] at hr
  rw [if_neg hne, ht] at hr
  split at hr
  case isTrue hb =>
    obtain ⟨lp, hlp⟩ : ∃ lp, t.takeWhile (fun c => c ≠ '@') = lp := ⟨_, rfl⟩
    obtain ⟨dom, hdom⟩ :
        ∃ dom, (t.dropWhile (fun c => c ≠ '@')).drop 1 = dom := ⟨_, rfl⟩
    obtain ⟨lp2, hlp2⟩ : ∃ lp2, lp.takeWhile (fun c => c ≠ '+') = lp2 :=
      ⟨_, rfl⟩
    rw [hlp, hdom, hlp2] at hr
    have hrval : r = ⟨lp2 ++ '@' :: dom⟩ := by
      injection hr with h3
      exact h3.symm
    subst hrval
    have hat : '@' ∈ t := by
      rw [listContains, List.any_eq_true] at hb
      obtain ⟨i, hi, hpre⟩ := hb
      obtain ⟨rest2, hrest2⟩ := isPrefixOf_append_exists hpre
      have h4 : '@' ∈ t.drop i := by
        rw [← hrest2]
        exact List.mem_append_left _ (by decide)
      exact List.mem_of_mem_drop h4
    have hdwnil : t.dropWhile (fun c => c ≠ '@') ≠ [] := by
      intro hnil
      have h5 := List.dropWhile_eq_nil_iff.mp hnil '@' hat
      simp at h5
    rcases hdd : t.dropWhile (fun c => c ≠ '@') with _ | ⟨d, ds⟩
    · exact absurd hdd hdwnil
    have hdat : d = '@' := by
      have h6 := dropWhile_cons_prop hdd
      simpa using h6
    have hds : ds = dom := by
      rw [← hdom, hdd]
      rfl
    have hsplit : t = lp ++ '@' :: dom := by
      conv_lhs => rw [← List.takeWhile_append_dropWhile
        (fun c => decide (c ≠ '@')) t]
      rw [hlp, hdd, hdat, hds]
    have hlpmem : ∀ c ∈ lp, c ≠ '@' := by
      intro c hc
      rw [← hlp] at hc
      have h7 := List.mem_takeWhile_imp hc
      simpa using h7
    have hlp2plus : ∀ c ∈ lp2, c ≠ '+' := by
      intro c hc
      rw [← hlp2] at hc
      have h7 := List.mem_takeWhile_imp hc
      simpa using h7
    have hlp2sub : ∀ c ∈ lp2, c ∈ lp := by
      intro c hc
      rw [← hlp2] at hc
      exact mem_of_mem_takeWhile hc
    have hlp2at : ∀ c ∈ lp2, c ≠ '@' := fun c hc => hlpmem c (hlp2sub c hc)
    have hfix : ∀ c ∈ t, pyCharLower c = c := mem_map_fix hlt
    have hrlow : pyLower (lp2 ++ '@' :: dom) = lp2 ++ '@' :: dom := by
      apply map_fix_of_mem
      intro c hc
      apply hfix
      rw [hsplit]
      rcases List.mem_append.mp hc with hc | hc
      · exact List.mem_append_left _ (hlp2sub c hc)
      · exact List.mem_append_right _ hc
    have hrne : lp2 ++ '@' :: dom ≠ [] := by simp
    have hrdw : (lp2 ++ '@' :: dom).dropWhile pySpace =
        lp2 ++ '@' :: dom := by
      rcases hlp2c : lp2 with _ | ⟨c, cs⟩
      · rw [List.nil_append, List.dropWhile_cons,
          (by decide : pySpace '@' = false)]
        simp
      · obtain ⟨l1, hl1⟩ := takeWhile_cons_head
          (show lp.takeWhile (fun c => c ≠ '+') = c :: cs by
            rw [hlp2, hlp2c])
        obtain ⟨l2, hl2⟩ := takeWhile_cons_head
          (show t.takeWhile (fun c => c ≠ '@') = c :: l1 by rw [hlp, hl1])
        have hpc : pySpace c = false :=
          dropWhile_cons_prop (l := t) (by rw [hdw]; exact hl2)
        rw [List.cons_append, List.dropWhile_cons, hpc]
        simp
    have hrrw : (lp2 ++ '@' :: dom).rdropWhile pySpace =
        lp2 ++ '@' :: dom := by
      apply rdropWhile_append_right_fix (y := '@' :: dom) ?_ (by simp)
      apply rdropWhile_fix_of_append (x := lp) ?_ (by simp)
      rw [← hsplit]
      exact hrw
    have hstripr : pyStrip (lp2 ++ '@' :: dom) = lp2 ++ '@' :: dom := by
      simp only [pyStrip, hrdw, hrrw]
    simp only [normalize_email, string_data_mk]
    rw [if_neg hrne, hstripr, hrlow]
    split
    case isTrue hb2 =>
      have h5 : (lp2 ++ '@' :: dom).takeWhile (fun c => c ≠ '@') = lp2 := by
        rw [takeWhile_append_all (fun c hc => by simpa using hlp2at c hc),
          List.takeWhile_cons]
        simp
      have h6 : (lp2 ++ '@' :: dom).dropWhile (fun c => c ≠ '@') =
          '@' :: dom := by
        rw [dropWhile_append_all (fun c hc => by simpa using hlp2at c hc),
          List.dropWhile_cons]
        simp
      rw [h5, h6,
        takeWhile_all (fun c hc => by simpa using hlp2plus c hc)]
      rfl
    case isFalse hb2 => rfl
  case isFalse hb =>
    have hrval : r = ⟨t⟩ := by
      injection hr with h3
      exact h3.symm
    subst hrval
    simp only [normalize_email, string_data_mk]
    rw [if_neg htne, hst, hlt, if_neg hb]

/-- C8 (counterexample).  Idempotence fails on the whitespace-only string
`" "`: the first pass strips it to the non-null empty string `""`, while
the second pass maps `""` to `None` (Python `if not email` treats the
empty string as falsy), so the two results differ. -/
theorem normalize_email_idem_counterexample :
    normalize_email (normalize_email (some " ")) ≠
      normalize_email (some " ") := by decide

/-- C8 (amended).  `normalize_email` is idempotent on every input except a
non-empty all-whitespace string: on missing input, on the empty string,
and on every string whose stripped form is non-empty, a second application
returns the first result unchanged. -/
theorem normalize_email_idem :
    (∀ s : String, pyStrip s.data ≠ [] →
      normalize_email (normalize_email (some s)) =
        normalize_email (some s)) ∧
    normalize_email (normalize_email none) = normalize_email none ∧
    normalize_email (normalize_email (some "")) =
      normalize_email (some "") := by
  refine ⟨?_, rfl, rfl⟩
  intro s hs
  have hne : s.data ≠ [] := by
    intro hh
    apply hs
    rw [hh]
    simp [pyStrip]
  obtain ⟨r, hr⟩ : ∃ r, normalize_email (some s) = some r := by
    by_cases hb : listContains (pyLower (pyStrip s.data))
        ("@gmail.com".data) = true
    · exact ⟨_, by simp only [normalize_email]; rw [if_neg hne, if_pos hb]⟩
    · exact ⟨_, by simp only [normalize_email]; rw [if_neg hne, if_neg hb]⟩
  rw [hr]
  exact normalize_email_result_fixed s hs hr

/-- C8 (witness): idempotence applied to the concrete address
`"John.Doe+promo@gmail.com"`. -/
theorem normalize_email_idem_witness :
    normalize_email (normalize_email (some "John.Doe+promo@gmail.com")) =
      normalize_email (some "John.Doe+promo@gmail.com") :=
  normalize_email_idem.1 "John.Doe+promo@gmail.com" (by decide)

/-! ## C2: score computation -/

/-- C2.  For every answer map scored without an answer key, the produced
record satisfies `accuracy = correct/(correct+wrong)*100` (`0` when
`correct + wrong = 0`), `netCorrect = correct - wrong` and
`score = correct*scheme.correct + wrong*scheme.wrong + skipped*scheme.skip`;
the synthetic key expects `["A","B","C","D"][(q-1) mod 4]` for a numeric
question and `"A"` otherwise; and the spec example
`{"1":"A","2":"B","3":"SKIP"}` under `{correct:4, wrong:-1, skip:0}` gives
`correct=2, wrong=0, skipped=1, accuracy=100, netCorrect=2, score=8`. -/
theorem compute_score_spec (answers : List (String × String))
    (scheme : MarkScheme) :
    ((compute_score answers none scheme).accuracy =
      (if (compute_score answers none scheme).correct +
          (compute_score answers none scheme).wrong = 0 then 0
        else ((compute_score answers none scheme).correct : ℚ) /
          (((compute_score answers none scheme).correct : ℚ) +
            ((compute_score answers none scheme).wrong : ℚ)) * 100)) ∧
    (compute_score answers none scheme).net_correct =
      ((compute_score answers none scheme).correct : Int) -
        ((compute_score answers none scheme).wrong : Int) ∧
    (compute_score answers none scheme).score =
      ((compute_score answers none scheme).correct : Int) * scheme.correct +
        ((compute_score answers none scheme).wrong : Int) * scheme.wrong +
        ((compute_score answers none scheme).skipped : Int) * scheme.skip ∧
    (∀ q n, pyIntOfString q = some n →
      defaultExpected q = default_answers.getD ((n - 1).emod 4).toNat "A") ∧
    (∀ q, pyIntOfString q = none → defaultExpected q = "A") ∧
    compute_score [("1", "A"), ("2", "B"), ("3", "SKIP")] none ⟨4, -1, 0⟩ =
      ⟨2, 0, 1, 100, 2, 8⟩ := by
  obtain ⟨cnt, hcnt⟩ : ∃ x, scoreCounts answers none = x := ⟨_, rfl⟩
  refine ⟨?_, ?_, ?_, ?_, ?_, ?_⟩
  · simp only [compute_score, hcnt]
    by_cases h0 : cnt.1 + cnt.2.1 = 0
    · rw [if_pos h0, if_neg (by omega)]
    · rw [if_neg h0, if_pos (by omega)]
  · simp only [compute_score]
  · simp only [compute_score]
  · intro q n hq
    simp [defaultExpected, hq]
  · intro q hq
    simp [defaultExpected, hq]
  · have hc : scoreCounts [("1", "A"), ("2", "B"), ("3", "SKIP")] none =
        (2, 0, 1) := by decide
    simp only [compute_score, hc]
    norm_num

/-- C2 (witness): the synthetic-key characterisation applied at the
numeric question `"7"`, at the PEP 515 underscore numeral `"1_0"`
(`int("1_0") = 10` in Python), and at the non-numeric key `"x"`. -/
theorem compute_score_spec_witness :
    (defaultExpected "7" =
      default_answers.getD (((7 : Int) - 1).emod 4).toNat "A") ∧
    (defaultExpected "1_0" =
      default_answers.getD (((10 : Int) - 1).emod 4).toNat "A") ∧
    defaultExpected "x" = "A" :=
  ⟨(compute_score_spec [] ⟨4, -1, 0⟩).2.2.2.1 "7" 7 (by decide),
    (compute_score_spec [] ⟨4, -1, 0⟩).2.2.2.1 "1_0" 10 (by decide),
    (compute_score_spec [] ⟨4, -1, 0⟩).2.2.2.2.1 "x" (by decide)⟩

/-! ## C5: recompute on an existing attempt -/

/-- C5.  `recompute_score` on an existing attempt fails (with the state
unchanged) exactly when the attempt status is `DEDUPED`; on `INGESTED`,
`SCORED` and `FLAGGED` attempts it succeeds, overwrites the score row with
the recomputed score and sets the status to `SCORED` unconditionally. -/
theorem recompute_score_spec (a : AttemptRec) (scheme : MarkScheme) :
    ((recompute_score a scheme).2 = none ↔
      a.status = AttemptStatus.DEDUPED) ∧
    (a.status = AttemptStatus.DEDUPED →
      recompute_score a scheme = (a, none)) ∧
    (a.status ≠ AttemptStatus.DEDUPED →
      (recompute_score a scheme).1.status = AttemptStatus.SCORED ∧
      (recompute_score a scheme).1.score =
        some (compute_score a.answers none scheme) ∧
      (recompute_score a scheme).1.answers = a.answers ∧
      (recompute_score a scheme).1.flags = a.flags ∧
      (recompute_score a scheme).2 =
        some (compute_score a.answers none scheme)) := by
  by_cases h : a.status = AttemptStatus.DEDUPED
  · refine ⟨?_, fun _ => ?_, fun hn => absurd h hn⟩
    · simp [recompute_score, h]
    · simp [recompute_score, h]
  · refine ⟨?_, fun hp => absurd hp h, fun _ => ?_⟩
    · simp [recompute_score, h]
    · simp [recompute_score, h]

/-- C5 (witness): a `FLAGGED` attempt is recomputed successfully and
reverted to `SCORED`. -/
theorem recompute_score_spec_witness :
    (recompute_score ⟨AttemptStatus.FLAGGED, [], none, []⟩
      ⟨4, -1, 0⟩).1.status = AttemptStatus.SCORED :=
  ((recompute_score_spec ⟨AttemptStatus.FLAGGED, [], none, []⟩
    ⟨4, -1, 0⟩).2.2 (by decide)).1

/-! ## C6: flagging an existing attempt -/

/-- C6.  `flag_attempt` fails (state unchanged, no flag row) exactly when
the reason strips to the empty string; for every non-whitespace reason it
appends one flag row holding the stripped reason and sets the status to
`FLAGGED` regardless of the prior status, leaving the stored score row and
the answers untouched. -/
theorem flag_attempt_spec (a : AttemptRec) (reason : String) :
    (pyStrip reason.data = [] → flag_attempt a reason = (a, none)) ∧
    (pyStrip reason.data ≠ [] →
      (flag_attempt a reason).1.status = AttemptStatus.FLAGGED ∧
      (flag_attempt a reason).1.flags =
        a.flags ++ [⟨pyStrip reason.data⟩] ∧
      (flag_attempt a reason).1.score = a.score ∧
      (flag_attempt a reason).1.answers = a.answers ∧
      (flag_attempt a reason).2 = some ⟨pyStrip reason.data⟩) := by
  by_cases h : pyStrip reason.data = []
  · exact ⟨fun _ => by simp [flag_attempt, h], fun hn => absurd h hn⟩
  · refine ⟨fun hp => absurd hp h, fun _ => ?_⟩
    simp [flag_attempt, h]

/-- C6 (witness): flagging a `DEDUPED` attempt with reason `" dup "`
appends the stripped flag and forces status `FLAGGED`. -/
theorem flag_attempt_spec_witness :
    (flag_attempt ⟨AttemptStatus.DEDUPED, [], none, []⟩ " dup ").1.status =
      AttemptStatus.FLAGGED ∧
    (flag_attempt ⟨AttemptStatus.DEDUPED, [], none, []⟩ " dup ").1.flags =
      [⟨pyStrip " dup ".data⟩] :=
  ⟨((flag_attempt_spec ⟨AttemptStatus.DEDUPED, [], none, []⟩ " dup ").2
      (by decide)).1,
    ((flag_attempt_spec ⟨AttemptStatus.DEDUPED, [], none, []⟩ " dup ").2
      (by decide)).2.1⟩

/-! ## C1: the duplicate decision procedure -/

theorem check_dup_go_eq_find (d : DedupInput) :
    ∀ pool : List Candidate,
      check_dup_go d (get_student_identity d.email d.phone) pool =
        (match pool.find? (passesAllRules d) with
          | some c => ⟨true, some c.id⟩
          | none => ⟨false, none⟩) := by
  intro pool
  induction pool with
  | nil => rfl
  | cons c rest ih =>
    by_cases h1 : get_student_identity (candEmail c) (candPhone c) =
        get_student_identity d.email d.phone
    · rcases hcs : c.started_at with _ | ts
      · -- time rule satisfied (missing candidate timestamp)
        by_cases h3 : calculate_answer_similarity d.answers c.answers ≥
            92 / 100
        · have hp : passesAllRules d c = true := by
            simp [passesAllRules, timeRuleOk, h1, hcs, h3]
          rw [List.find?_cons_of_pos _ hp]
          simp only [check_dup_go, hcs]
          rw [if_neg (by simp [h1]), if_neg (by simp), if_pos h3]
        · have hp : passesAllRules d c = false := by
            simp [passesAllRules, timeRuleOk, h1, hcs, h3]
          rw [List.find?_cons_of_neg _ (by simp [hp])]
          simp only [check_dup_go, hcs]
          rw [if_neg (by simp [h1]), if_neg (by simp), if_neg h3]
          exact ih
      · rcases hds : d.started_at with _ | tn
        · by_cases h3 : calculate_answer_similarity d.answers c.answers ≥
              92 / 100
          · have hp : passesAllRules d c = true := by
              simp [passesAllRules, timeRuleOk, h1, hcs, hds, h3]
            rw [List.find?_cons_of_pos _ hp]
            simp only [check_dup_go, hcs, hds]
            rw [if_neg (by simp [h1]), if_neg (by simp), if_pos h3]
          · have hp : passesAllRules d c = false := by
              simp [passesAllRules, timeRuleOk, h1, hcs, hds, h3]
            rw [List.find?_cons_of_neg _ (by simp [hp])]
            simp only [check_dup_go, hcs, hds]
            rw [if_neg (by simp [h1]), if_neg (by simp), if_neg h3]
            exact ih
        · by_cases h2 : |tn - ts| > (420 : ℚ)
          · have hp : passesAllRules d c = false := by
              simp only [passesAllRules, timeRuleOk, hcs, hds]
              simp [not_le.mpr h2]
            rw [List.find?_cons_of_neg _ (by simp [hp])]
            simp only [check_dup_go, hcs, hds]
            rw [if_neg (by simp [h1]), if_pos (by simpa using h2)]
            exact ih
          · by_cases h3 : calculate_answer_similarity d.answers c.answers ≥
                92 / 100
            · have hp : passesAllRules d c = true := by
                simp [passesAllRules, timeRuleOk, h1, hcs, hds,
                  not_lt.mp h2, h3]
              rw [List.find?_cons_of_pos _ hp]
              simp only [check_dup_go, hcs, hds]
              rw [if_neg (by simp [h1]), if_neg (by simpa using h2),
                if_pos h3]
            · have hp : passesAllRules d c = false := by
                simp [passesAllRules, timeRuleOk, h1, hcs, hds, h3]
              rw [List.find?_cons_of_neg _ (by simp [hp])]
              simp only [check_dup_go, hcs, hds]
              rw [if_neg (by simp [h1]), if_neg (by simpa using h2),
                if_neg h3]
              exact ih
    · have hp : passesAllRules d c = false := by
        simp [passesAllRules, h1]
      rw [List.find?_cons_of_neg _ (by simp [hp])]
      simp only [check_dup_go]
      rw [if_pos (by simp; exact fun hh => h1 hh.symm)]
      exact ih

/-- C1.  `check_duplicate` returns not-a-duplicate immediately when the new
attempt's identity is unknown; otherwise it returns
`{is_duplicate := true, canonical_attempt_id := c.id}` for the first
candidate `c` in pool order that passes all three rules (equal resolved
identity, start times within 420 seconds — vacuously satisfied when either
timestamp is missing — and answer similarity at least 0.92), and
not-a-duplicate when no candidate passes. -/
theorem check_duplicate_spec (d : DedupInput) (pool : List Candidate) :
    check_duplicate d pool =
      (if (get_student_identity d.email d.phone).2 = none then
        ⟨false, none⟩
      else
        match pool.find? (passesAllRules d) with
        | some c => ⟨true, some c.id⟩
        | none => ⟨false, none⟩) := by
  by_cases hu : (get_student_identity d.email d.phone).2 = none
  · rw [check_duplicate, if_pos hu, if_pos hu]
  · rw [check_duplicate, if_neg hu, if_neg hu]
    exact check_dup_go_eq_find d pool

/-! ## C7: leaderboard ranking -/

theorem skey_inj {x y : LbScore} (h : skey x = skey y) : x = y := by
  cases x
  cases y
  simp only [skey, toLex_inj, Prod.mk.injEq] at h
  obtain ⟨h1, h2, h3⟩ := h
  simp_all

theorem rankGE_iff (x y : LbScore) : rankGE x y ↔ skey y ≤ skey x := by
  simp only [rankGE, skey, Prod.Lex.le_iff, gt_iff_lt, ge_iff_le]
  constructor
  · rintro (h | ⟨h1, h2 | ⟨h3, h4⟩⟩)
    · exact Or.inl h
    · exact Or.inr ⟨h1.symm, Or.inl h2⟩
    · exact Or.inr ⟨h1.symm, Or.inr ⟨h3.symm, h4⟩⟩
  · rintro (h | ⟨h1, h2 | ⟨h3, h4⟩⟩)
    · exact Or.inl h
    · exact Or.inr ⟨h1.symm, Or.inl h2⟩
    · exact Or.inr ⟨h1.symm, Or.inr ⟨h3.symm, h4⟩⟩

theorem insertDesc_perm (x : LbAttempt × LbScore)
    (l : List (LbAttempt × LbScore)) : (insertDesc x l).Perm (x :: l) := by
  induction l with
  | nil => exact List.Perm.refl _
  | cons y ys ih =>
    rw [insertDesc]
    split
    · exact (ih.cons y).trans (List.Perm.swap x y ys)
    · exact List.Perm.refl _

theorem sortDesc_perm (l : List (LbAttempt × LbScore)) :
    (sortDesc l).Perm l := by
  induction l with
  | nil => exact List.Perm.refl _
  | cons x xs ih =>
    rw [sortDesc]
    exact (insertDesc_perm x (sortDesc xs)).trans (ih.cons x)

theorem insertDesc_pairwise (x : LbAttempt × LbScore)
    {l : List (LbAttempt × LbScore)} (h : List.Pairwise lbLE l) :
    List.Pairwise lbLE (insertDesc x l) := by
  induction l with
  | nil => simp [insertDesc, lbLE]
  | cons y ys ih =>
    rw [insertDesc]
    obtain ⟨hy, hys⟩ := List.pairwise_cons.mp h
    split
    case isTrue hgt =>
      apply List.pairwise_cons.mpr
      refine ⟨?_, ih hys⟩
      intro z hz
      rcases List.mem_cons.mp ((insertDesc_perm x ys).mem_iff.mp hz) with
        hz | hz
      · rw [hz]
        exact le_of_lt hgt
      · exact hy z hz
    case isFalse hle =>
      apply List.pairwise_cons.mpr
      refine ⟨?_, h⟩
      intro z hz
      rcases List.mem_cons.mp hz with hz | hz
      · rw [hz]
        exact not_lt.mp hle
      · exact le_trans (hy z hz) (not_lt.mp hle)

theorem sortDesc_pairwise (l : List (LbAttempt × LbScore)) :
    List.Pairwise lbLE (sortDesc l) := by
  induction l with
  | nil => simp [sortDesc]
  | cons x xs ih =>
    rw [sortDesc]
    exact insertDesc_pairwise x ih

theorem insertDesc_filter (x : LbAttempt × LbScore)
    (l : List (LbAttempt × LbScore)) (k : LbScore) :
    (insertDesc x l).filter (fun e => e.2 = k) =
      if x.2 = k then x :: l.filter (fun e => e.2 = k)
      else l.filter (fun e => e.2 = k) := by
  induction l with
  | nil =>
    rw [insertDesc]
    by_cases hx : x.2 = k
    · rw [if_pos hx]
      simp [List.filter, hx]
    · rw [if_neg hx]
      simp [List.filter, hx]
  | cons y ys ih =>
    rw [insertDesc]
    split
    case isTrue hgt =>
      have hyx : y.2 ≠ x.2 := by
        intro hh
        rw [← hh] at hgt
        exact lt_irrefl _ hgt
      by_cases hx : x.2 = k
      · have hy : ¬(y.2 = k) := by rw [← hx]; exact hyx
        rw [if_pos hx]
        rw [List.filter_cons, if_neg (by simpa using hy), ih, if_pos hx,
          List.filter_cons, if_neg (by simpa using hy)]
      · rw [if_neg hx]
        rw [List.filter_cons, ih, if_neg hx, List.filter_cons]
    case isFalse hle =>
      by_cases hx : x.2 = k
      · rw [if_pos hx]
        rw [List.filter_cons, if_pos (by simpa using hx)]
      · rw [if_neg hx]
        rw [List.filter_cons, if_neg (by simpa using hx)]

theorem sortDesc_filter (l : List (LbAttempt × LbScore)) (k : LbScore) :
    (sortDesc l).filter (fun e => e.2 = k) =
      l.filter (fun e => e.2 = k) := by
  induction l with
  | nil => rfl
  | cons x xs ih =>
    rw [sortDesc, insertDesc_filter]
    by_cases hx : x.2 = k
    · rw [if_pos hx, ih, List.filter_cons, if_pos (by simpa using hx)]
    · rw [if_neg hx, ih, List.filter_cons, if_neg (by simpa using hx)]

theorem bestReplace_map_ids (a : LbAttempt) (s : LbScore) :
    ∀ l : List (LbAttempt × LbScore),
      (bestReplace a s l).map (fun e => e.1.student_id) =
        l.map (fun e => e.1.student_id) := by
  intro l
  induction l with
  | nil => rfl
  | cons b rest ih =>
    obtain ⟨b1, b2⟩ := b
    rw [bestReplace]
    split
    case isTrue hid =>
      rw [List.map_cons, List.map_cons]
      congr 1
      split
      · simpa using hid.symm
      · rfl
    case isFalse hid =>
      rw [List.map_cons, List.map_cons, ih]

theorem bestReplace_mem {a : LbAttempt} {s : LbScore}
    {l : List (LbAttempt × LbScore)} {e : LbAttempt × LbScore}
    (h : e ∈ bestReplace a s l) : e ∈ l ∨ e = (a, s) := by
  induction l with
  | nil => simp [bestReplace] at h
  | cons b rest ih =>
    obtain ⟨b1, b2⟩ := b
    rw [bestReplace] at h
    split at h
    case isTrue hid =>
      rcases List.mem_cons.mp h with h | h
      · split at h
        · exact Or.inr h
        · exact Or.inl (by rw [h]; exact List.mem_cons_self _ _)
      · exact Or.inl (List.mem_cons_of_mem _ h)
    case isFalse hid =>
      rcases List.mem_cons.mp h with h | h
      · exact Or.inl (by rw [h]; exact List.mem_cons_self _ _)
      · rcases ih h with h | h
        · exact Or.inl (List.mem_cons_of_mem _ h)
        · exact Or.inr h

theorem bestStep_mem {acc : List (LbAttempt × LbScore)} {a : LbAttempt}
    {e : LbAttempt × LbScore} (h : e ∈ bestStep acc a) :
    e ∈ acc ∨ (e.1 = a ∧ a.score = some e.2) := by
  rcases ha : a.score with _ | s
  · simp only [bestStep, ha] at h
    exact Or.inl h
  · simp only [bestStep, ha] at h
    by_cases hany :
        (acc.any fun e => decide (e.1.student_id = a.student_id)) = true
    · rw [if_pos hany] at h
      rcases bestReplace_mem h with h | h
      · exact Or.inl h
      · exact Or.inr (by rw [h]; exact ⟨rfl, rfl⟩)
    · rw [if_neg hany] at h
      rcases List.mem_append.mp h with h | h
      · exact Or.inl h
      · have h2 : e = (a, s) := by simpa using h
        exact Or.inr (by rw [h2]; exact ⟨rfl, rfl⟩)

theorem foldl_bestStep_mem :
    ∀ (pool : List LbAttempt) (acc : List (LbAttempt × LbScore))
      (e : LbAttempt × LbScore), e ∈ pool.foldl bestStep acc →
      e ∈ acc ∨ (e.1 ∈ pool ∧ e.1.score = some e.2) := by
  intro pool
  induction pool with
  | nil => intro acc e h; exact Or.inl h
  | cons a rest ih =>
    intro acc e h
    rw [List.foldl_cons] at h
    rcases ih (bestStep acc a) e h with h2 | h2
    · rcases bestStep_mem h2 with h3 | h3
      · exact Or.inl h3
      · exact Or.inr ⟨by rw [h3.1]; exact List.mem_cons_self _ _,
          by rw [h3.1]; exact h3.2⟩
    · exact Or.inr ⟨List.mem_cons_of_mem _ h2.1, h2.2⟩

theorem bestAttempts_mem {pool : List LbAttempt}
    {e : LbAttempt × LbScore} (h : e ∈ bestAttempts pool) :
    e.1 ∈ pool ∧ e.1.score = some e.2 := by
  rcases foldl_bestStep_mem pool [] e h with h2 | h2
  · simp at h2
  · exact h2

theorem bestStep_ids (acc : List (LbAttempt × LbScore)) (a : LbAttempt) :
    (bestStep acc a).map (fun e => e.1.student_id) =
        acc.map (fun e => e.1.student_id) ∨
      (bestStep acc a).map (fun e => e.1.student_id) =
        acc.map (fun e => e.1.student_id) ++ [a.student_id] := by
  rcases ha : a.score with _ | s
  · simp only [bestStep, ha]
    exact Or.inl trivial
  · simp only [bestStep, ha]
    by_cases hany :
        (acc.any fun e => decide (e.1.student_id = a.student_id)) = true
    · rw [if_pos hany]
      exact Or.inl (bestReplace_map_ids a s acc)
    · rw [if_neg hany]
      exact Or.inr (by simp)

theorem foldl_bestStep_ids_nodup :
    ∀ (pool : List LbAttempt) (acc : List (LbAttempt × LbScore)),
      (acc.map (fun e => e.1.student_id)).Nodup →
      ((pool.foldl bestStep acc).map (fun e => e.1.student_id)).Nodup := by
  intro pool
  induction pool with
  | nil => intro acc h; exact h
  | cons a rest ih =>
    intro acc h
    rw [List.foldl_cons]
    apply ih
    rcases ha : a.score with _ | s
    · simp only [bestStep, ha]
      exact h
    · simp only [bestStep, ha]
      by_cases hany :
          (acc.any fun e => decide (e.1.student_id = a.student_id)) = true
      · rw [if_pos hany, bestReplace_map_ids]
        exact h
      · rw [if_neg hany, List.map_append]
        simp only [List.map_cons, List.map_nil]
        rw [List.nodup_append]
        refine ⟨h, List.nodup_singleton _, ?_⟩
        intro sid hsid hsid2
        have hsid3 : sid = a.student_id := by simpa using hsid2
        rw [Bool.not_eq_true, List.any_eq_false] at hany
        obtain ⟨e, he, hee⟩ := List.mem_map.mp hsid
        have := hany e he
        rw [← hee] at hsid3
        simp [hsid3] at this

theorem bestAttempts_ids_nodup (pool : List LbAttempt) :
    ((bestAttempts pool).map (fun e => e.1.student_id)).Nodup :=
  foldl_bestStep_ids_nodup pool [] (by simp)

theorem foldl_bestStep_ids_sublist :
    ∀ (pool : List LbAttempt) (acc : List (LbAttempt × LbScore)),
      ∃ ex, (pool.foldl bestStep acc).map (fun e => e.1.student_id) =
          acc.map (fun e => e.1.student_id) ++ ex ∧
        ex.Sublist (pool.map (fun a => a.student_id)) := by
  intro pool
  induction pool with
  | nil => intro acc; exact ⟨[], by simp, List.Sublist.refl _⟩
  | cons a rest ih =>
    intro acc
    rw [List.foldl_cons]
    obtain ⟨ex, hex, hsub⟩ := ih (bestStep acc a)
    rcases bestStep_ids acc a with hids | hids
    · rw [hids] at hex
      exact ⟨ex, hex, List.Sublist.cons _ hsub⟩
    · rw [hids, List.append_assoc] at hex
      exact ⟨a.student_id :: ex, hex, List.Sublist.cons₂ _ hsub⟩

theorem bestAttempts_ids_sublist (pool : List LbAttempt) :
    ((bestAttempts pool).map (fun e => e.1.student_id)).Sublist
      (pool.map (fun a => a.student_id)) := by
  obtain ⟨ex, hex, hsub⟩ := foldl_bestStep_ids_sublist pool []
  rw [bestAttempts, hex]
  simpa using hsub

theorem beats_iff (cur old : LbScore) :
    beats cur old = true ↔ skey old < skey cur := by
  simp only [beats, skey, Prod.Lex.lt_iff, decide_eq_true_eq, gt_iff_lt]
  constructor
  · rintro (h | ⟨h1, h2⟩ | ⟨h1, h2, h3⟩)
    · exact Or.inl h
    · exact Or.inr ⟨h1.symm, Or.inl h2⟩
    · exact Or.inr ⟨h1.symm, Or.inr ⟨h2.symm, h3⟩⟩
  · rintro (h | ⟨h1, h2 | ⟨h3, h4⟩⟩)
    · exact Or.inl h
    · exact Or.inr (Or.inl ⟨h1.symm, h2⟩)
    · exact Or.inr (Or.inr ⟨h1.symm, h3.symm, h4⟩)

theorem bestReplace_entry {a : LbAttempt} {s : LbScore} :
    ∀ {acc : List (LbAttempt × LbScore)},
      (acc.map (fun e => e.1.student_id)).Nodup →
      ∀ {e' : LbAttempt × LbScore}, e' ∈ bestReplace a s acc →
      (e' ∈ acc ∧ e'.1.student_id ≠ a.student_id) ∨
        ∃ cur, cur ∈ acc ∧ cur.1.student_id = a.student_id ∧
          e' = (if beats s cur.2 then (a, s) else cur) := by
  intro acc
  induction acc with
  | nil => intro _ e' h; simp [bestReplace] at h
  | cons b rest ih =>
    intro hnd e' h
    obtain ⟨b1, b2⟩ := b
    simp only [List.map_cons, List.nodup_cons] at hnd
    rw [bestReplace] at h
    split at h
    case isTrue hid =>
      rcases List.mem_cons.mp h with h | h
      · exact Or.inr ⟨(b1, b2), List.mem_cons_self _ _, hid, h⟩
      · refine Or.inl ⟨List.mem_cons_of_mem _ h, ?_⟩
        intro hh
        apply hnd.1
        rw [← hid] at hh
        rw [← hh]
        exact List.mem_map.mpr ⟨e', h, rfl⟩
    case isFalse hid =>
      rcases List.mem_cons.mp h with h | h
      · exact Or.inl ⟨by rw [h]; exact List.mem_cons_self _ _,
          by rw [h]; simpa using hid⟩
      · rcases ih hnd.2 h with ⟨hin, hne⟩ | ⟨cur, hcur, hcs, he⟩
        · exact Or.inl ⟨List.mem_cons_of_mem _ hin, hne⟩
        · exact Or.inr ⟨cur, List.mem_cons_of_mem _ hcur, hcs, he⟩

theorem bestStep_nodup {acc : List (LbAttempt × LbScore)} (a : LbAttempt)
    (h : (acc.map (fun e => e.1.student_id)).Nodup) :
    ((bestStep acc a).map (fun e => e.1.student_id)).Nodup := by
  rcases ha : a.score with _ | s
  · simp only [bestStep, ha]
    exact h
  · simp only [bestStep, ha]
    by_cases hany :
        (acc.any fun e => decide (e.1.student_id = a.student_id)) = true
    · rw [if_pos hany, bestReplace_map_ids]
      exact h
    · rw [if_neg hany, List.map_append]
      simp only [List.map_cons, List.map_nil]
      rw [List.nodup_append]
      refine ⟨h, List.nodup_singleton _, ?_⟩
      intro sid hsid hsid2
      have hsid3 : sid = a.student_id := by simpa using hsid2
      rw [Bool.not_eq_true, List.any_eq_false] at hany
      obtain ⟨e, he, hee⟩ := List.mem_map.mp hsid
      have h9 := hany e he
      rw [← hee] at hsid3
      simp [hsid3] at h9

theorem bestStep_inv3 {acc : List (LbAttempt × LbScore)}
    {processed : List LbAttempt} (a : LbAttempt)
    (h3 : ∀ b ∈ processed, ∀ sb : LbScore, b.score = some sb →
      b.student_id ∈ acc.map (fun e => e.1.student_id)) :
    ∀ b ∈ processed ++ [a], ∀ sb : LbScore, b.score = some sb →
      b.student_id ∈ (bestStep acc a).map (fun e => e.1.student_id) := by
  intro b hb sb hsb
  rcases ha : a.score with _ | s
  · simp only [bestStep, ha]
    rcases List.mem_append.mp hb with hb | hb
    · exact h3 b hb sb hsb
    · have hba : b = a := by simpa using hb
      rw [hba, ha] at hsb
      cases hsb
  · simp only [bestStep, ha]
    by_cases hany :
        (acc.any fun e => decide (e.1.student_id = a.student_id)) = true
    · rw [if_pos hany, bestReplace_map_ids]
      rcases List.mem_append.mp hb with hb | hb
      · exact h3 b hb sb hsb
      · have hba : b = a := by simpa using hb
        rw [List.any_eq_true] at hany
        obtain ⟨entry, hentry, hdec⟩ := hany
        rw [hba]
        exact List.mem_map.mpr ⟨entry, hentry, by simpa using hdec⟩
    · rw [if_neg hany, List.map_append]
      rcases List.mem_append.mp hb with hb | hb
      · exact List.mem_append_left _ (h3 b hb sb hsb)
      · have hba : b = a := by simpa using hb
        rw [hba]
        exact List.mem_append_right _ (by simp)

theorem bestStep_inv2 {acc : List (LbAttempt × LbScore)}
    {processed : List LbAttempt} (a : LbAttempt)
    (h1 : (acc.map (fun e => e.1.student_id)).Nodup)
    (h2 : ∀ e ∈ acc, ∀ b ∈ processed, b.student_id = e.1.student_id →
      ∀ sb, b.score = some sb → skey sb ≤ skey e.2)
    (h3 : ∀ b ∈ processed, ∀ sb : LbScore, b.score = some sb →
      b.student_id ∈ acc.map (fun e => e.1.student_id)) :
    ∀ e ∈ bestStep acc a, ∀ b ∈ processed ++ [a],
      b.student_id = e.1.student_id → ∀ sb, b.score = some sb →
        skey sb ≤ skey e.2 := by
  intro e' he' b hb hsid sb hsb
  rcases ha : a.score with _ | s
  · simp only [bestStep, ha] at he'
    rcases List.mem_append.mp hb with hb | hb
    · exact h2 e' he' b hb hsid sb hsb
    · have hba : b = a := by simpa using hb
      rw [hba, ha] at hsb
      cases hsb
  · simp only [bestStep, ha] at he'
    by_cases hany :
        (acc.any fun e => decide (e.1.student_id = a.student_id)) = true
    · rw [if_pos hany] at he'
      rcases bestReplace_entry h1 he' with ⟨hin, hne⟩ |
        ⟨cur, hcur, hcs, heq⟩
      · rcases List.mem_append.mp hb with hb | hb
        · exact h2 e' hin b hb hsid sb hsb
        · have hba : b = a := by simpa using hb
          rw [hba] at hsid
          exact absurd hsid.symm hne
      · by_cases hbeats : beats s cur.2 = true
        · rw [if_pos hbeats] at heq
          have hlt : skey cur.2 < skey s := (beats_iff s cur.2).mp hbeats
          have he2 : e'.2 = s := by rw [heq]
          have hesid : e'.1.student_id = a.student_id := by rw [heq]
          rcases List.mem_append.mp hb with hb | hb
          · have hbc : b.student_id = cur.1.student_id := by
              rw [hsid, hesid, hcs]
            have h5 := h2 cur hcur b hb hbc sb hsb
            rw [he2]
            exact le_trans h5 (le_of_lt hlt)
          · have hba : b = a := by simpa using hb
            rw [hba, ha] at hsb
            injection hsb with hv
            rw [he2, hv]
        · rw [if_neg hbeats] at heq
          have hle : skey s ≤ skey cur.2 :=
            not_lt.mp (fun hh => hbeats ((beats_iff s cur.2).mpr hh))
          rcases List.mem_append.mp hb with hb | hb
          · have hbc : b.student_id = cur.1.student_id := by
              rw [hsid, heq]
            rw [heq]
            exact h2 cur hcur b hb hbc sb hsb
          · have hba : b = a := by simpa using hb
            rw [hba, ha] at hsb
            injection hsb with hv
            rw [heq, ← hv]
            exact hle
    · rw [if_neg hany] at he'
      rcases List.mem_append.mp he' with he' | he'
      · rcases List.mem_append.mp hb with hb | hb
        · exact h2 e' he' b hb hsid sb hsb
        · exfalso
          have hba : b = a := by simpa using hb
          rw [Bool.not_eq_true, List.any_eq_false] at hany
          have h9 := hany e' he'
          rw [hba] at hsid
          simp [hsid.symm] at h9
      · have he'' : e' = (a, s) := by simpa using he'
        rcases List.mem_append.mp hb with hb | hb
        · exfalso
          have h6 := h3 b hb sb hsb
          rw [Bool.not_eq_true, List.any_eq_false] at hany
          obtain ⟨entry, hentry, hee⟩ := List.mem_map.mp h6
          have h9 := hany entry hentry
          rw [he''] at hsid
          rw [hsid] at hee
          simp [hee] at h9
        · have hba : b = a := by simpa using hb
          rw [hba, ha] at hsb
          injection hsb with hv
          rw [he'', hv]

theorem foldl_bestStep_master :
    ∀ (pool : List LbAttempt) (acc : List (LbAttempt × LbScore))
      (processed : List LbAttempt),
      (acc.map (fun e => e.1.student_id)).Nodup →
      (∀ e ∈ acc, ∀ b ∈ processed, b.student_id = e.1.student_id →
        ∀ sb, b.score = some sb → skey sb ≤ skey e.2) →
      (∀ b ∈ processed, ∀ sb : LbScore, b.score = some sb →
        b.student_id ∈ acc.map (fun e => e.1.student_id)) →
      ∀ e ∈ pool.foldl bestStep acc, ∀ b ∈ processed ++ pool,
        b.student_id = e.1.student_id → ∀ sb, b.score = some sb →
          skey sb ≤ skey e.2 := by
  intro pool
  induction pool with
  | nil =>
    intro acc processed h1 h2 h3 e he b hb
    rw [List.append_nil] at hb
    exact h2 e he b hb
  | cons a rest ih =>
    intro acc processed h1 h2 h3 e he b hb hsid sb hsb
    rw [List.foldl_cons] at he
    have hmem : b ∈ (processed ++ [a]) ++ rest := by
      simpa [List.append_assoc] using hb
    exact ih (bestStep acc a) (processed ++ [a]) (bestStep_nodup a h1)
      (bestStep_inv2 a h1 h2 h3) (bestStep_inv3 a h3) e he b hmem hsid sb hsb

theorem bestAttempts_best (pool : List LbAttempt) :
    ∀ e ∈ bestAttempts pool, ∀ b ∈ pool,
      b.student_id = e.1.student_id → ∀ sb, b.score = some sb →
        skey sb ≤ skey e.2 := by
  intro e he b hb
  exact foldl_bestStep_master pool [] [] (by simp) (by simp) (by simp)
    e he b (by simpa using hb)

/-- C7.  For every stored attempt list and test id, the leaderboard lists
at most one entry per student (pairwise distinct student ids), every
entry is an attempt of that student from the test's `SCORED` pool that
ranks at least as high as every other pool attempt of the same student
under the three-key order (best attempt per student), the list is ranked
by the three-key order score desc / accuracy desc / net-correct desc with
the tie-breaks applied exactly in that order, all-equal triples retain
the relative order of the best-attempts dict (stability: filtering on any
fixed triple commutes with the sort), and the students of that dict
appear in the query order of the underlying attempt list (their id
sequence is a sublist of the pool's id sequence). -/
theorem leaderboard_spec (tid : Nat) (attempts : List LbAttempt) :
    List.Pairwise (fun x y => x.1.student_id ≠ y.1.student_id)
      (get_leaderboard tid attempts) ∧
    List.Pairwise (fun x y => rankGE x.2 y.2)
      (get_leaderboard tid attempts) ∧
    (∀ k : LbScore,
      (get_leaderboard tid attempts).filter (fun e => e.2 = k) =
        (bestAttempts (attempts.filter (fun a => a.test_id = tid ∧
          a.status = AttemptStatus.SCORED))).filter (fun e => e.2 = k)) ∧
    ((bestAttempts (attempts.filter (fun a => a.test_id = tid ∧
        a.status = AttemptStatus.SCORED))).map
          (fun e => e.1.student_id)).Sublist
      ((attempts.filter (fun a => a.test_id = tid ∧
        a.status = AttemptStatus.SCORED)).map (fun a => a.student_id)) ∧
    (∀ e ∈ get_leaderboard tid attempts,
      e.1 ∈ attempts ∧ e.1.test_id = tid ∧
        e.1.status = AttemptStatus.SCORED ∧ e.1.score = some e.2 ∧
        ∀ b ∈ attempts, b.test_id = tid →
          b.status = AttemptStatus.SCORED →
          b.student_id = e.1.student_id → ∀ sb, b.score = some sb →
            rankGE e.2 sb) := by
  refine ⟨?_, ?_, ?_, ?_, ?_⟩
  · have hnd := bestAttempts_ids_nodup (attempts.filter
      (fun a => a.test_id = tid ∧ a.status = AttemptStatus.SCORED))
    have hperm := (sortDesc_perm (bestAttempts (attempts.filter
      (fun a => a.test_id = tid ∧ a.status = AttemptStatus.SCORED)))).map
      (fun e => e.1.student_id)
    have hnd2 := hperm.nodup_iff.mpr hnd
    have hnd3 := List.pairwise_map.mp hnd2
    rw [get_leaderboard]
    exact hnd3
  · exact (sortDesc_pairwise _).imp (fun h => (rankGE_iff _ _).mpr h)
  · intro k
    exact sortDesc_filter _ k
  · exact bestAttempts_ids_sublist _
  · intro e he
    rw [get_leaderboard] at he
    have h1 : e ∈ bestAttempts (attempts.filter (fun a => a.test_id = tid ∧
        a.status = AttemptStatus.SCORED)) :=
      (sortDesc_perm _).mem_iff.mp he
    have h2 := bestAttempts_mem h1
    have h3 := List.mem_filter.mp h2.1
    have h4 : e.1.test_id = tid ∧ e.1.status = AttemptStatus.SCORED := by
      simpa using h3.2
    refine ⟨h3.1, h4.1, h4.2, h2.2, ?_⟩
    intro b hbmem hbt hbs hbsid sb hbscore
    have hbpool : b ∈ attempts.filter (fun a => a.test_id = tid ∧
        a.status = AttemptStatus.SCORED) :=
      List.mem_filter.mpr ⟨hbmem, by simp [hbt, hbs]⟩
    exact (rankGE_iff _ _).mpr
      (bestAttempts_best _ e h1 b hbpool hbsid sb hbscore)

/-- C7 (witness): with two `SCORED` attempts of the same student, the
leaderboard keeps the better one, whose triple ranks at least as high as
the other attempt's triple. -/
theorem leaderboard_spec_witness :
    rankGE (⟨10, 100, 10⟩ : LbScore) (⟨5, 50, 5⟩ : LbScore) :=
  ((leaderboard_spec 0
      [⟨0, 1, 0, AttemptStatus.SCORED, some ⟨5, 50, 5⟩⟩,
       ⟨1, 1, 0, AttemptStatus.SCORED, some ⟨10, 100, 10⟩⟩]).2.2.2.2
    (⟨1, 1, 0, AttemptStatus.SCORED, some ⟨10, 100, 10⟩⟩, ⟨10, 100, 10⟩)
    (by decide)).2.2.2.2
    ⟨0, 1, 0, AttemptStatus.SCORED, some ⟨5, 50, 5⟩⟩ (by decide) rfl rfl rfl
    ⟨5, 50, 5⟩ rfl

/-! ## C10: flagged attempts never reach the leaderboard -/

/-- C10.  Every leaderboard entry comes from an attempt whose stored
status is exactly `SCORED`; hence an attempt with status `FLAGGED` never
appears, even if it still has a score row, and a student none of whose
attempts for the test is `SCORED` (for example after their only scored
attempt was flagged) is absent from the leaderboard. -/
theorem leaderboard_only_scored (tid : Nat) (attempts : List LbAttempt) :
    (∀ e ∈ get_leaderboard tid attempts,
      e.1.status = AttemptStatus.SCORED ∧ e.1.test_id = tid ∧
        e.1 ∈ attempts) ∧
    (∀ a : LbAttempt, a.status = AttemptStatus.FLAGGED →
      ∀ e ∈ get_leaderboard tid attempts, e.1 ≠ a) ∧
    (∀ sid : Nat, (∀ a ∈ attempts, a.student_id = sid →
        a.status ≠ AttemptStatus.SCORED) →
      ∀ e ∈ get_leaderboard tid attempts, e.1.student_id ≠ sid) := by
  have hmem : ∀ e ∈ get_leaderboard tid attempts,
      e.1.status = AttemptStatus.SCORED ∧ e.1.test_id = tid ∧
        e.1 ∈ attempts := by
    intro e he
    rw [get_leaderboard] at he
    have h1 : e ∈ bestAttempts (attempts.filter (fun a => a.test_id = tid ∧
        a.status = AttemptStatus.SCORED)) := (sortDesc_perm _).mem_iff.mp he
    have h2 := (bestAttempts_mem h1).1
    have h3 := List.mem_filter.mp h2
    have h4 := h3.2
    simp only [decide_eq_true_eq] at h4
    exact ⟨h4.2, h4.1, h3.1⟩
  refine ⟨hmem, ?_, ?_⟩
  · intro a ha e he hea
    have h5 := (hmem e he).1
    rw [hea, ha] at h5
    cases h5
  · intro sid hsid e he heq
    obtain ⟨h5, h6, h7⟩ := hmem e he
    exact hsid e.1 h7 heq h5

/-- C10 (witness): with one `SCORED` and one `FLAGGED` attempt stored, the
single leaderboard entry is the scored attempt and differs from the
flagged one. -/
theorem leaderboard_only_scored_witness :
    ((⟨0, 1, 0, AttemptStatus.SCORED, some ⟨10, 100, 10⟩⟩ : LbAttempt),
        (⟨10, 100, 10⟩ : LbScore)).1 ≠
      (⟨1, 2, 0, AttemptStatus.FLAGGED, some ⟨20, 100, 20⟩⟩ : LbAttempt) :=
  (leaderboard_only_scored 0
      [⟨0, 1, 0, AttemptStatus.SCORED, some ⟨10, 100, 10⟩⟩,
       ⟨1, 2, 0, AttemptStatus.FLAGGED, some ⟨20, 100, 20⟩⟩]).2.1
    ⟨1, 2, 0, AttemptStatus.FLAGGED, some ⟨20, 100, 20⟩⟩ rfl
    (⟨0, 1, 0, AttemptStatus.SCORED, some ⟨10, 100, 10⟩⟩, ⟨10, 100, 10⟩)
    (by decide)

/-! ## C9: ingestion batch summary arithmetic -/

theorem stepEvent_inv {st : IngestState}
    (hI : st.ingested = st.duplicates + st.scored ∧
      st.details.length = st.ingested + st.errors) (ev : IngestEvent) :
    (stepEvent st ev).ingested =
        (stepEvent st ev).duplicates + (stepEvent st ev).scored ∧
      (stepEvent st ev).details.length =
        (stepEvent st ev).ingested + (stepEvent st ev).errors := by
  obtain ⟨h1, h2⟩ := hI
  rcases hd : (process_event st.db ev).2 with ⟨eid, rs⟩ | ⟨eid, aid, cid⟩ |
    ⟨eid, aid, sc⟩ <;>
    simp only [stepEvent, hd] <;>
    refine ⟨by omega, ?_⟩ <;>
    simp only [List.length_append, List.length_cons, List.length_nil] <;>
    omega

theorem foldl_stepEvent_inv :
    ∀ (events : List IngestEvent) (st : IngestState),
      (st.ingested = st.duplicates + st.scored ∧
        st.details.length = st.ingested + st.errors) →
      ((events.foldl stepEvent st).ingested =
          (events.foldl stepEvent st).duplicates +
            (events.foldl stepEvent st).scored ∧
        (events.foldl stepEvent st).details.length =
          (events.foldl stepEvent st).ingested +
            (events.foldl stepEvent st).errors) := by
  intro events
  induction events with
  | nil => intro st h; exact h
  | cons ev rest ih =>
    intro st h
    rw [List.foldl_cons]
    exact ih (stepEvent st ev) (stepEvent_inv h ev)

theorem foldl_stepEvent_details :
    ∀ (events : List IngestEvent) (st : IngestState),
      (events.foldl stepEvent st).details.length =
        st.details.length + events.length := by
  intro events
  induction events with
  | nil => intro st; simp
  | cons ev rest ih =>
    intro st
    rw [List.foldl_cons, ih]
    have hstep : (stepEvent st ev).details.length =
        st.details.length + 1 := by
      rcases hd : (process_event st.db ev).2 with ⟨eid, rs⟩ |
        ⟨eid, aid, cid⟩ | ⟨eid, aid, sc⟩ <;>
        simp [stepEvent, hd]
    rw [hstep]
    simp [List.length_cons]
    omega

/-- C9.  For every starting store and batch of events, the ingestion
summary satisfies the arithmetic invariants: `total_received` is the
number of submitted events, `ingested = duplicates_detected + scored`,
`total_received = ingested + errors`, and `details` holds exactly one
outcome entry per submitted event. -/
theorem ingest_attempts_invariants (db : IngestDB)
    (events : List IngestEvent) :
    (ingest_attempts db events).1.total_received = events.length ∧
    (ingest_attempts db events).1.ingested =
      (ingest_attempts db events).1.duplicates_detected +
        (ingest_attempts db events).1.scored ∧
    (ingest_attempts db events).1.total_received =
      (ingest_attempts db events).1.ingested +
        (ingest_attempts db events).1.errors ∧
    (ingest_attempts db events).1.details.length = events.length := by
  have hI := foldl_stepEvent_inv events ⟨db, 0, 0, 0, 0, []⟩
    ⟨rfl, rfl⟩
  have hd := foldl_stepEvent_details events ⟨db, 0, 0, 0, 0, []⟩
  refine ⟨rfl, hI.1, ?_, ?_⟩
  · show events.length = _
    have h3 := hI.2
    rw [hd] at h3
    simpa using h3
  · simpa using hd
